import Mathlib

/-!
Verification of the push-based stream library in src/src/index.ts.

A stream is a function from an observer (callbacks next / error / complete) to a
subscription (a zero-argument cleanup action).  All mutable state of an operator
lives in the closure created at subscription time.  Each operator is embedded
here as an explicit state machine: the closure variables become explicit state,
the interleaved callback invocations a subscription can receive become an input
schedule (a list of input events), and the downstream observer calls become the
output trace (a list of Ev events).  Every embedding follows the corresponding
source function line by line; spec-side descriptions used to state refinement
results are named with a Spec component.
-/

/-- Downstream events an observer receives: next carries a value, error carries a
failure payload, complete is the terminal success signal (index.ts lines 3-7). -/
inductive Ev (α : Type) (ε : Type) where
  | next (a : α)
  | error (e : ε)
  | complete
  deriving DecidableEq

/-- Values carried by the next events of a downstream trace, in order. -/
def evValues {α ε : Type} : List (Ev α ε) → List α
  | [] => []
  | Ev.next a :: rest => a :: evValues rest
  | Ev.error _ :: rest => evValues rest
  | Ev.complete :: rest => evValues rest

/-- Number of complete events in a downstream trace. -/
def completeCount {α ε : Type} : List (Ev α ε) → Nat
  | [] => 0
  | Ev.next _ :: rest => completeCount rest
  | Ev.error _ :: rest => completeCount rest
  | Ev.complete :: rest => completeCount rest + 1

theorem evValues_append {α ε : Type} (a b : List (Ev α ε)) :
    evValues (a ++ b) = evValues a ++ evValues b := by
  induction a with
  | nil => rfl
  | cons x rest ih => cases x <;> simp [evValues, ih]

theorem completeCount_append {α ε : Type} (a b : List (Ev α ε)) :
    completeCount (a ++ b) = completeCount a + completeCount b := by
  induction a with
  | nil => simp [completeCount]
  | cons x rest ih => cases x <;> simp [completeCount, ih] <;> omega

theorem completeCount_pos {α ε : Type} (l : List (Ev α ε)) (h : Ev.complete ∈ l) :
    1 ≤ completeCount l := by
  induction l with
  | nil => simp at h
  | cons x rest ih =>
    rcases List.mem_cons.mp h with h1 | h2
    · rw [← h1]; simp [completeCount]
    · have := ih h2
      cases x <;> simp [completeCount] <;> omega

/-! ## take (index.ts lines 57-73)

take keeps a counter i, forwards every value, increments the counter, and when
the counter reaches n invokes the handle `unsubscribe` that is assigned from the
return value of the upstream subscribe call on line 60.  If the upstream
delivers values synchronously inside that very call, the handle has not been
assigned yet (it is a const in its temporal dead zone) and invoking it faults.
The embedding therefore splits the upstream deliveries into a synchronous phase
(during the subscribe call, handle unassigned) and an asynchronous phase (after
the call returned, handle assigned).  A well-behaved upstream delivers nothing
further once cancelled, and a fault aborts the run. -/

/-- Result of running a take subscription: the values forwarded downstream,
whether the run faulted by invoking the cancellation handle before it was
assigned, and whether the upstream subscription was cancelled. -/
structure TakeResult (α : Type) where
  downstream : List α
  fault : Bool
  upstreamCancelled : Bool
  deriving DecidableEq

/-- One delivery phase of take: processes upstream values with counter i;
`assigned` records whether the unsubscribe handle of line 60 is available. -/
def takeGo {α : Type} (n : Nat) (assigned : Bool) : Nat → List α → TakeResult α
  | _, [] => ⟨[], false, false⟩
  | i, v :: vs =>
    if i + 1 = n then
      if assigned then ⟨[v], false, true⟩ else ⟨[v], true, false⟩
    else
      let r := takeGo n assigned (i + 1) vs
      ⟨v :: r.downstream, r.fault, r.upstreamCancelled⟩

/-- A full take subscription: syncVals arrive during the subscribe call itself
(handle unassigned), asyncVals arrive after it returned (handle assigned). -/
def takeRun {α : Type} (n : Nat) (syncVals asyncVals : List α) : TakeResult α :=
  let s := takeGo n false 0 syncVals
  if s.fault then s
  else
    let a := takeGo n true syncVals.length asyncVals
    ⟨s.downstream ++ a.downstream, a.fault, a.upstreamCancelled⟩

theorem takeGo_fault_assigned {α : Type} (vs : List α) :
    ∀ (n i : Nat), (takeGo n true i vs).fault = false := by
  induction vs with
  | nil => intro n i; rfl
  | cons v rest ih =>
    intro n i
    by_cases h : i + 1 = n
    · simp [takeGo, h]
    · simp [takeGo, h, ih]

theorem takeGo_fault_unassigned {α : Type} (vs : List α) :
    ∀ (n i : Nat), 0 < n → i < n → n ≤ i + vs.length →
      (takeGo n false i vs).fault = true := by
  induction vs with
  | nil => intro n i h1 h2 h3; simp at h3; omega
  | cons v rest ih =>
    intro n i h1 h2 h3
    by_cases h : i + 1 = n
    · simp [takeGo, h]
    · simp only [takeGo, h, if_false]
      exact ih n (i + 1) h1 (by omega) (by simp at h3; omega)

/-- Claim C4: take 2 over a producer emitting 1,2,3,4 after the subscribe call
returned forwards exactly 1 and 2 downstream in order, then cancels the upstream
subscription; the later values 3 and 4 are never delivered downstream. -/
theorem take_two_forwards_first_two :
    takeRun 2 ([] : List Nat) [1, 2, 3, 4] = ⟨[1, 2], false, true⟩ := by
  decide

/-- Claim C5 counterexample: take 1 over an upstream that delivers its value
synchronously during the subscribe call invokes the cancellation handle before
the handle has been assigned, so the subscription faults. -/
theorem take_sync_fault_counterexample :
    (takeRun 1 [0] ([] : List Nat)).fault = true := by
  decide

/-- Claim C5 (amended): when the upstream delivers at least n values (n at least
one) synchronously during the subscribe call itself, take n invokes the
cancellation handle before it is assigned and the subscription faults; when
every value arrives only after the subscribe call returned, the handle is always
assigned at the moment it is invoked and no fault occurs. -/
theorem take_handle_assignment (α : Type) :
    (∀ (n : Nat) (syncVals : List α), 1 ≤ n → n ≤ syncVals.length →
      (takeRun n syncVals []).fault = true)
    ∧ (∀ (n : Nat) (asyncVals : List α), (takeRun n [] asyncVals).fault = false) := by
  constructor
  · intro n syncVals h1 h2
    have h := takeGo_fault_unassigned syncVals n 0 (by omega) (by omega) (by omega)
    simp [takeRun, h]
  · intro n asyncVals
    have h := takeGo_fault_assigned asyncVals n 0
    simp [takeRun, takeGo, h]

/-- Claim C5 witness: a concrete synchronous upstream faults and a concrete
asynchronous upstream does not. -/
theorem take_handle_assignment_witness :
    (takeRun 1 [0] ([] : List Nat)).fault = true
    ∧ (takeRun 2 [] ([5] : List Nat)).fault = false :=
  ⟨(take_handle_assignment Nat).1 1 [0] (by decide) (by decide),
   (take_handle_assignment Nat).2 2 [5]⟩

/-- Claim C6 evaluation at the failing input: with n = 0 the counter check on
line 65 happens only after an increment, so it never matches 0; take 0 forwards
every upstream value downstream and never unsubscribes from the upstream. -/
theorem take_zero_forwards_everything :
    takeRun 0 ([] : List Nat) [1, 2, 3] = ⟨[1, 2, 3], false, false⟩ := by
  decide

/-! ## scan (index.ts lines 43-55) -/

/-- Per-value part of scan: updates the accumulator with f and emits it. -/
def scanGo {α β : Type} (f : β → α → β) : β → List α → List β
  | _, [] => []
  | current, v :: vs =>
    let c := f current v
    c :: scanGo f c vs

/-- A scan subscription: line 46 emits the initial value before subscribing to
the upstream, then every upstream value updates and emits the accumulator. -/
def scanRun {α β : Type} (f : β → α → β) (initialValue : β) (upstream : List α) : List β :=
  initialValue :: scanGo f initialValue upstream

/-- Claim C7: scan with addition and seed 0 over upstream values 1,2,3 delivers
exactly 0,1,3,6 downstream; the seed is emitted at subscription time, before any
upstream value, as the head of the trace for every upstream. -/
theorem scan_sum_sequence :
    scanRun (fun a b => a + b) 0 [1, 2, 3] = [0, 1, 3, 6]
    ∧ ∀ (f : Nat → Nat → Nat) (seed : Nat) (l : List Nat),
        (scanRun f seed l).head? = some seed :=
  ⟨by decide, fun _ _ _ => rfl⟩

/-! ## periodic (index.ts lines 12-24)

The producer keeps a counter i; each timer tick delivers next i and increments.
The returned subscription clears the timer and then unconditionally invokes
observer.complete (line 21), so each invocation of the subscription delivers one
complete event. -/

/-- Actions driving a periodic subscription: a timer tick, or an invocation of
the returned subscription. -/
inductive PAct where
  | tick
  | cancel
  deriving DecidableEq

def periodicRunAux (i : Nat) : List PAct → List (Ev Nat Unit)
  | [] => []
  | PAct.tick :: rest => Ev.next i :: periodicRunAux (i + 1) rest
  | PAct.cancel :: rest => Ev.complete :: periodicRunAux i rest

def periodicRun (acts : List PAct) : List (Ev Nat Unit) :=
  periodicRunAux 0 acts

/-- Claim C8 evaluation at the failing input: two ticks emit 0 then 1 with no
error and no complete of their own; invoking the subscription delivers complete,
and invoking it a second time delivers complete again, because line 21 calls
observer.complete unconditionally on every invocation. -/
theorem periodic_double_cancel :
    periodicRun [PAct.tick, PAct.tick, PAct.cancel, PAct.cancel]
      = [Ev.next 0, Ev.next 1, Ev.complete, Ev.complete]
    ∧ completeCount (periodicRun [PAct.tick, PAct.tick]) = 0 := by
  decide

/-! ## fromPromise (index.ts lines 115-126) -/

/-- Delivery of fromPromise, driven by how the promise settles: resolution runs
the then-callback (next then complete, lines 117-119), rejection runs the
catch-callback (error only, lines 120-122). -/
def fromPromiseEvents {α ε : Type} : Except ε α → List (Ev α ε)
  | Except.ok v => [Ev.next v, Ev.complete]
  | Except.error e => [Ev.error e]

/-- A fromPromise subscription together with its cancellation flag: the returned
subscription on line 124 is a function with an empty body, so it updates no
state and the delivered events do not depend on whether it was invoked before
the promise settled. -/
def fromPromiseRun {α ε : Type} (cancelledBeforeSettle : Bool) (outcome : Except ε α) :
    List (Ev α ε) :=
  fromPromiseEvents outcome

/-- Claim C9: when the promise resolves the observer receives exactly one next
with the resolved value followed by complete; when it rejects the observer
receives error with the rejection value and never complete and never next. -/
theorem fromPromise_delivery (α ε : Type) (v : α) (e : ε) :
    fromPromiseEvents (Except.ok v : Except ε α) = [Ev.next v, Ev.complete]
    ∧ fromPromiseEvents (Except.error e : Except ε α) = [Ev.error e]
    ∧ completeCount (fromPromiseEvents (Except.error e : Except ε α)) = 0
    ∧ evValues (fromPromiseEvents (Except.error e : Except ε α)) = [] :=
  ⟨rfl, rfl, rfl, rfl⟩

/-- Claim C10: invoking the fromPromise subscription before the promise settles
is a no-op, so the observer still receives exactly the same delivery as without
cancellation. -/
theorem fromPromise_cancel_noop (α ε : Type) (c : Bool) (outcome : Except ε α) :
    fromPromiseRun c outcome = fromPromiseRun false outcome
    ∧ fromPromiseRun c outcome = fromPromiseEvents outcome :=
  ⟨rfl, rfl⟩

/-! ## merge (index.ts lines 75-98)

merge subscribes to every input; a value from any input is forwarded unchanged,
and a completion of any input increments the shared counter numCompleted and
fires downstream complete exactly when the counter reaches the number of
inputs.  A subscription is driven by the interleaved schedule of input events,
each tagged with the index of the input that delivered it. -/

/-- Input events a merge or combine leg can deliver: a value or that leg's own
completion. -/
inductive MEv (α : Type) where
  | next (a : α)
  | complete
  deriving DecidableEq

def mergeRunAux {α : Type} (k numCompleted : Nat) : List (Nat × MEv α) → List (Ev α Unit)
  | [] => []
  | (_, MEv.next a) :: rest => Ev.next a :: mergeRunAux k numCompleted rest
  | (_, MEv.complete) :: rest =>
      (if numCompleted + 1 = k then [Ev.complete] else [])
        ++ mergeRunAux k (numCompleted + 1) rest

def mergeRun {α : Type} (k : Nat) (sched : List (Nat × MEv α)) : List (Ev α Unit) :=
  mergeRunAux k 0 sched

/-- Values carried by a schedule, in arrival order. -/
def schedValues {α : Type} : List (Nat × MEv α) → List α
  | [] => []
  | (_, MEv.next a) :: rest => a :: schedValues rest
  | (_, MEv.complete) :: rest => schedValues rest

/-- Number of input completions in a schedule. -/
def schedCompletes {α : Type} : List (Nat × MEv α) → Nat
  | [] => 0
  | (_, MEv.next _) :: rest => schedCompletes rest
  | (_, MEv.complete) :: rest => schedCompletes rest + 1

/-- Projection of a schedule onto one input index: the events that input
delivered, in order. -/
def projAt {α : Type} (i : Nat) : List (Nat × MEv α) → List (MEv α)
  | [] => []
  | (j, e) :: rest => if j = i then e :: projAt i rest else projAt i rest

def mevValues {α : Type} : List (MEv α) → List α
  | [] => []
  | MEv.next a :: rest => a :: mevValues rest
  | MEv.complete :: rest => mevValues rest

def mevCompletes {α : Type} : List (MEv α) → Nat
  | [] => 0
  | MEv.next _ :: rest => mevCompletes rest
  | MEv.complete :: rest => mevCompletes rest + 1

theorem mergeRunAux_values {α : Type} (sched : List (Nat × MEv α)) :
    ∀ (k c : Nat), evValues (mergeRunAux k c sched) = schedValues sched := by
  induction sched with
  | nil => intro k c; rfl
  | cons x rest ih =>
    intro k c
    obtain ⟨j, e⟩ := x
    cases e with
    | next a => simp [mergeRunAux, evValues, schedValues, ih]
    | complete =>
      by_cases h : c + 1 = k
      · simp [mergeRunAux, h, evValues, schedValues, ih]
      · simp [mergeRunAux, h, evValues, schedValues, ih]

theorem mergeRunAux_completeCount {α : Type} (sched : List (Nat × MEv α)) :
    ∀ (k c : Nat), completeCount (mergeRunAux k c sched)
      = if c < k ∧ k ≤ c + schedCompletes sched then 1 else 0 := by
  induction sched with
  | nil =>
    intro k c
    simp only [mergeRunAux, completeCount, schedCompletes]
    split_ifs with h <;> omega
  | cons x rest ih =>
    intro k c
    obtain ⟨j, e⟩ := x
    cases e with
    | next a =>
      simp only [mergeRunAux, completeCount, schedCompletes]
      exact ih k c
    | complete =>
      by_cases h : c + 1 = k
      · simp only [mergeRunAux, h, if_true, schedCompletes, completeCount_append,
          completeCount, ih]
        split_ifs <;> omega
      · simp only [mergeRunAux, h, if_false, schedCompletes, completeCount_append,
          completeCount, ih]
        split_ifs <;> omega

theorem mergeRunAux_complete_late {α : Type} (sched : List (Nat × MEv α)) (k c : Nat)
    (h : Ev.complete ∈ mergeRunAux k c sched) : k ≤ c + schedCompletes sched := by
  have h1 := completeCount_pos _ h
  rw [mergeRunAux_completeCount] at h1
  by_cases hc : c < k ∧ k ≤ c + schedCompletes sched
  · omega
  · simp [hc] at h1

theorem schedCompletes_partition {α : Type} (sched : List (Nat × MEv α))
    (hidx : ∀ x ∈ sched, x.1 < 2) :
    schedCompletes sched = mevCompletes (projAt 0 sched) + mevCompletes (projAt 1 sched)
    ∧ (schedValues sched).length
        = (mevValues (projAt 0 sched)).length + (mevValues (projAt 1 sched)).length := by
  induction sched with
  | nil => exact ⟨rfl, rfl⟩
  | cons x rest ih =>
    obtain ⟨j, e⟩ := x
    have hj : j < 2 := hidx (j, e) (List.mem_cons_self _ _)
    have ih' := ih (fun y hy => hidx y (List.mem_cons_of_mem _ hy))
    have hj01 : j = 0 ∨ j = 1 := by omega
    rcases hj01 with rfl | rfl
    · cases e with
      | next a =>
        simp only [schedCompletes, schedValues, projAt, if_true, mevCompletes, mevValues]
        simp [ih'.1, ih'.2]
        omega
      | complete =>
        simp only [schedCompletes, schedValues, projAt, if_true, mevCompletes, mevValues]
        simp [ih'.1, ih'.2]
        omega
    · cases e with
      | next a =>
        simp only [schedCompletes, schedValues, projAt, if_true, mevCompletes, mevValues]
        simp [ih'.1, ih'.2]
        omega
      | complete =>
        simp only [schedCompletes, schedValues, projAt, if_true, mevCompletes, mevValues]
        simp [ih'.1, ih'.2]
        omega

/-- Claim C3: for any interleaved schedule in which input 0 emits two values and
then completes while input 1 emits one value and then completes, merge forwards
the three values downstream in their real arrival order, fires exactly one
downstream complete, and a downstream complete can be present only once both
inputs have completed: completion is counted per input and fires when the count
reaches the number of inputs. -/
theorem merge_two_streams (α : Type) (a1 a2 b1 : α) (sched : List (Nat × MEv α))
    (hidx : ∀ x ∈ sched, x.1 < 2)
    (hA : projAt 0 sched = [MEv.next a1, MEv.next a2, MEv.complete])
    (hB : projAt 1 sched = [MEv.next b1, MEv.complete]) :
    evValues (mergeRun 2 sched) = schedValues sched
    ∧ (schedValues sched).length = 3
    ∧ completeCount (mergeRun 2 sched) = 1
    ∧ ∀ p q : List (Nat × MEv α), sched = p ++ q →
        Ev.complete ∈ mergeRun 2 p → 2 ≤ schedCompletes p := by
  have hpart := schedCompletes_partition sched hidx
  refine ⟨mergeRunAux_values sched 2 0, ?_, ?_, ?_⟩
  · rw [hpart.2, hA, hB]; rfl
  · show completeCount (mergeRunAux 2 0 sched) = 1
    rw [mergeRunAux_completeCount]
    have hsc : schedCompletes sched = 2 := by rw [hpart.1, hA, hB]; rfl
    rw [hsc]
    norm_num
  · intro p q hpq hm
    have := mergeRunAux_complete_late p 2 0 hm
    omega

/-- Claim C3 witness at a concrete interleaving of the two inputs. -/
theorem merge_two_streams_witness :
    evValues (mergeRun 2 [(0, MEv.next 1), (1, MEv.next 10), (0, MEv.next 2),
        (0, MEv.complete), (1, MEv.complete)]) = [1, 10, 2]
    ∧ completeCount (mergeRun 2 [(0, MEv.next 1), (1, MEv.next 10), (0, MEv.next 2),
        (0, MEv.complete), (1, MEv.complete)]) = 1 := by
  have h := merge_two_streams Nat 1 2 10
    [(0, MEv.next 1), (1, MEv.next 10), (0, MEv.next 2), (0, MEv.complete), (1, MEv.complete)]
    (by decide) (by decide) (by decide)
  exact ⟨by rw [h.1]; rfl, h.2.2.1⟩

/-! ## flatten (index.ts lines 135-168)

flatten keeps two closure variables: innerSub, the subscription of the at most
one active inner stream, and outerCompleted.  A new inner stream from the outer
source cancels any active inner and replaces it; the outer completion handler
only sets outerCompleted (line 159); the inner completion handler clears
innerSub and fires downstream complete when outerCompleted is already set
(lines 149-154).  A subscription is driven by a schedule of the four kinds of
callback invocations that can occur. -/

/-- Schedule events for flatten: the outer source delivers a new inner stream or
completes; the currently active inner stream delivers a value or completes. -/
inductive FlEv (α : Type) where
  | onext
  | ocomplete
  | inext (a : α)
  | icomplete
  deriving DecidableEq

def flattenRunAux {α : Type} (innerActive outerCompleted : Bool) :
    List (FlEv α) → List (Ev α Unit)
  | [] => []
  | FlEv.onext :: rest => flattenRunAux true outerCompleted rest
  | FlEv.ocomplete :: rest => flattenRunAux innerActive true rest
  | FlEv.inext a :: rest => Ev.next a :: flattenRunAux innerActive outerCompleted rest
  | FlEv.icomplete :: rest =>
      (if outerCompleted then [Ev.complete] else [])
        ++ flattenRunAux false outerCompleted rest

def flattenRun {α : Type} (sched : List (FlEv α)) : List (Ev α Unit) :=
  flattenRunAux false false sched

/-- Well-formed flatten schedules: inner events occur only while an inner
subscription is active, outer events only while the outer has not completed. -/
def flWF {α : Type} (innerActive outerCompleted : Bool) : List (FlEv α) → Bool
  | [] => true
  | FlEv.onext :: rest => !outerCompleted && flWF true outerCompleted rest
  | FlEv.ocomplete :: rest => !outerCompleted && flWF innerActive true rest
  | FlEv.inext _ :: rest => innerActive && flWF innerActive outerCompleted rest
  | FlEv.icomplete :: rest => innerActive && flWF false outerCompleted rest

/-- Spec-side count of the completion opportunities flatten acts on: the number
of inner completions that occur after the outer stream has completed. -/
def flattenSpecCompletes {α : Type} (outerCompleted : Bool) : List (FlEv α) → Nat
  | [] => 0
  | FlEv.onext :: rest => flattenSpecCompletes outerCompleted rest
  | FlEv.ocomplete :: rest => flattenSpecCompletes true rest
  | FlEv.inext _ :: rest => flattenSpecCompletes outerCompleted rest
  | FlEv.icomplete :: rest =>
      (if outerCompleted then 1 else 0) + flattenSpecCompletes outerCompleted rest

/-- Claim C1 counterexample: a well-formed run in which the only inner stream
completes first and the outer completes afterwards, so no inner subscription is
active when the outer completes; the downstream never receives complete, while
the claim says complete still fires. -/
theorem flatten_no_complete_counterexample :
    flWF false false ([FlEv.onext, FlEv.icomplete, FlEv.ocomplete] : List (FlEv Nat)) = true
    ∧ completeCount
        (flattenRun ([FlEv.onext, FlEv.icomplete, FlEv.ocomplete] : List (FlEv Nat))) = 0 := by
  decide

/-- Claim C1 (amended): the number of downstream completes equals the number of
inner completions that occur after the outer stream has completed; in particular
when the outer completes while an inner is active, downstream completion is
deferred until that inner completes, and when the outer completes while no inner
subscription is active, downstream complete never fires, because the completion
check lives only in the inner completion handler. -/
theorem flatten_completion (α : Type) (sched : List (FlEv α)) :
    ∀ (innerActive outerCompleted : Bool),
      completeCount (flattenRunAux innerActive outerCompleted sched)
        = flattenSpecCompletes outerCompleted sched := by
  induction sched with
  | nil => intro ia oc; rfl
  | cons e rest ih =>
    intro ia oc
    cases e with
    | onext => simp [flattenRunAux, flattenSpecCompletes, ih]
    | ocomplete => simp [flattenRunAux, flattenSpecCompletes, ih]
    | inext a => simp [flattenRunAux, flattenSpecCompletes, completeCount, ih]
    | icomplete =>
      cases oc with
      | false => simp [flattenRunAux, flattenSpecCompletes, completeCount, ih]
      | true =>
        simp [flattenRunAux, flattenSpecCompletes, completeCount, completeCount_append, ih]
        omega

/-! ## combine (index.ts lines 270-305)

combine keeps an array values of latest inputs, initialised with a private
sentinel object (the marker of line 272), a counter numData of inputs that have
produced at least one value, and a counter numCompleted.  A value from input i
increments numData when slot i still holds the marker, overwrites slot i, and
pushes the whole array downstream when numData equals the number of inputs.
Completion accounting mirrors merge.  The values array is embedded as a map from
slot index to a Slot, and a pushed array as the list of the first k slots. -/

/-- Slot of the latest-values array of combine: marker is the private sentinel
object created at subscription time (line 272), val is real data.  Because the
sentinel is compared by identity with a fresh object, no input value can ever
equal it, which the separate constructor captures. -/
inductive Slot (α : Type) where
  | marker
  | val (a : α)
  deriving DecidableEq

def isMarker {α : Type} : Slot α → Bool
  | Slot.marker => true
  | Slot.val _ => false

/-- Closure state of a combine subscription. -/
structure CombState (α : Type) where
  values : Nat → Slot α
  numData : Nat
  numCompleted : Nat

def combineRunAux {α : Type} (k : Nat) :
    CombState α → List (Nat × MEv α) → List (Ev (List (Slot α)) Unit)
  | _, [] => []
  | s, (i, MEv.next a) :: rest =>
    let numData' := if isMarker (s.values i) then s.numData + 1 else s.numData
    let values' := fun j => if j = i then Slot.val a else s.values j
    (if numData' = k then [Ev.next ((List.range k).map values')] else [])
      ++ combineRunAux k ⟨values', numData', s.numCompleted⟩ rest
  | s, (_, MEv.complete) :: rest =>
    (if s.numCompleted + 1 = k then [Ev.complete] else [])
      ++ combineRunAux k ⟨s.values, s.numData, s.numCompleted + 1⟩ rest

def combineRun {α : Type} (k : Nat) (sched : List (Nat × MEv α)) :
    List (Ev (List (Slot α)) Unit) :=
  combineRunAux k ⟨fun _ => Slot.marker, 0, 0⟩ sched

/-- Latest value delivered by input j within a schedule prefix, or the marker
when input j has not produced yet. -/
def latestSlot {α : Type} (j : Nat) (p : List (Nat × MEv α)) : Slot α :=
  p.foldl (fun s e =>
    match e with
    | (i, MEv.next a) => if i = j then Slot.val a else s
    | (_, MEv.complete) => s) Slot.marker

/-- Spec-side readiness: every input below k has produced at least one value. -/
def allReady {α : Type} (k : Nat) (p : List (Nat × MEv α)) : Bool :=
  (List.range k).all (fun j => !isMarker (latestSlot j p))

/-- Spec-side snapshot: the tuple of latest values of all k inputs. -/
def snapshotTuple {α : Type} (k : Nat) (p : List (Nat × MEv α)) : List (Slot α) :=
  (List.range k).map (fun j => latestSlot j p)

/-- Spec-side description of what combine pushes downstream: on each input value
whose arrival leaves every input with at least one produced value, the full
snapshot tuple of latest values; nothing before all inputs have produced and
nothing on completions. -/
def combineSpecNexts {α : Type} (k : Nat) :
    List (Nat × MEv α) → List (Nat × MEv α) → List (List (Slot α))
  | _, [] => []
  | done, (i, MEv.next a) :: rest =>
    let d := done ++ [(i, MEv.next a)]
    (if allReady k d then [snapshotTuple k d] else []) ++ combineSpecNexts k d rest
  | done, (i, MEv.complete) :: rest =>
    combineSpecNexts k (done ++ [(i, MEv.complete)]) rest

/-- Number of inputs below k whose latest slot is filled. -/
def readyCount {α : Type} (k : Nat) (p : List (Nat × MEv α)) : Nat :=
  ((List.range k).filter (fun j => !isMarker (latestSlot j p))).length

theorem latestSlot_concat_next {α : Type} (j i : Nat) (a : α) (p : List (Nat × MEv α)) :
    latestSlot j (p ++ [(i, MEv.next a)]) = if i = j then Slot.val a else latestSlot j p := by
  simp [latestSlot, List.foldl_append]

theorem latestSlot_concat_complete {α : Type} (j i : Nat) (p : List (Nat × MEv α)) :
    latestSlot j (p ++ [(i, MEv.complete)]) = latestSlot j p := by
  simp [latestSlot, List.foldl_append]

theorem filterCongrOn {α : Type} (p q : α → Bool) (l : List α)
    (h : ∀ x ∈ l, p x = q x) : l.filter p = l.filter q := by
  induction l with
  | nil => rfl
  | cons x t ih =>
    have hx := h x (List.mem_cons_self _ _)
    have ih' := ih (fun y hy => h y (List.mem_cons_of_mem _ hy))
    cases hq : q x
    · rw [List.filter_cons_of_neg, List.filter_cons_of_neg, ih'] <;> simp [hx, hq]
    · rw [List.filter_cons_of_pos, List.filter_cons_of_pos, ih'] <;> simp [hx, hq]

theorem filterLength_update (i : Nat) (p q : Nat → Bool) (hpi : p i = false)
    (hqi : q i = true) (l : List Nat) (hnd : l.Nodup)
    (h : ∀ x ∈ l, x ≠ i → p x = q x) (hmem : i ∈ l) :
    (l.filter q).length = (l.filter p).length + 1 := by
  induction l with
  | nil => simp at hmem
  | cons x t ih =>
    have hxt : x ∉ t := (List.nodup_cons.mp hnd).1
    have hndt : t.Nodup := (List.nodup_cons.mp hnd).2
    have ht : ∀ y ∈ t, y ≠ i → p y = q y := fun y hy => h y (List.mem_cons_of_mem _ hy)
    rcases List.mem_cons.mp hmem with rfl | hm
    · have heq : t.filter p = t.filter q := by
        refine filterCongrOn p q t (fun y hy => ht y hy ?_)
        intro hc
        exact hxt (hc ▸ hy)
      rw [List.filter_cons_of_pos, List.filter_cons_of_neg, heq] <;> simp [hpi, hqi]
    · have hxi : x ≠ i := fun hc => hxt (hc ▸ hm)
      have hpq : p x = q x := h x (List.mem_cons_self _ _) hxi
      have ih' := ih hndt ht hm
      cases hq : q x
      · rw [List.filter_cons_of_neg, List.filter_cons_of_neg, ih'] <;> simp [hpq, hq]
      · rw [List.filter_cons_of_pos, List.filter_cons_of_pos] <;> simp [hpq, hq, ih']

theorem filterLength_all (l : List Nat) (p : Nat → Bool) :
    ((l.filter p).length = l.length) ↔ (∀ x ∈ l, p x = true) := by
  induction l with
  | nil => simp
  | cons x t ih =>
    cases hx : p x with
    | true =>
      rw [List.filter_cons_of_pos (by simp [hx])]
      simp [hx, ih]
    | false =>
      rw [List.filter_cons_of_neg (by simp [hx])]
      have hle := List.length_filter_le p t
      simp only [List.length_cons, List.forall_mem_cons, hx]
      constructor
      · intro hl; omega
      · intro hl; exact absurd hl.1 (by simp)

theorem readyCount_concat_next_marker {α : Type} (k i : Nat) (a : α)
    (p : List (Nat × MEv α)) (hik : i < k)
    (hm : isMarker (latestSlot i p) = true) :
    readyCount k (p ++ [(i, MEv.next a)]) = readyCount k p + 1 := by
  refine filterLength_update i (fun j => !isMarker (latestSlot j p))
    (fun j => !isMarker (latestSlot j (p ++ [(i, MEv.next a)])))
    (by simp [hm]) (by simp [latestSlot_concat_next, isMarker]) (List.range k)
    (List.nodup_range k) ?_ (List.mem_range.mpr hik)
  intro x hx hxi
  have hix : ¬ (i = x) := fun hc => hxi hc.symm
  simp [latestSlot_concat_next, hix]

theorem readyCount_concat_next_filled {α : Type} (k i : Nat) (a : α)
    (p : List (Nat × MEv α)) (hm : isMarker (latestSlot i p) = false) :
    readyCount k (p ++ [(i, MEv.next a)]) = readyCount k p := by
  unfold readyCount
  rw [filterCongrOn (fun j => !isMarker (latestSlot j (p ++ [(i, MEv.next a)])))
    (fun j => !isMarker (latestSlot j p)) (List.range k)]
  intro x hx
  simp only [latestSlot_concat_next]
  by_cases hxi : i = x
  · subst hxi
    rw [if_pos rfl, hm]
    rfl
  · simp [hxi]

theorem readyCount_concat_complete {α : Type} (k i : Nat) (p : List (Nat × MEv α)) :
    readyCount k (p ++ [(i, MEv.complete)]) = readyCount k p := by
  unfold readyCount
  rw [filterCongrOn (fun j => !isMarker (latestSlot j (p ++ [(i, MEv.complete)])))
    (fun j => !isMarker (latestSlot j p)) (List.range k)]
  intro x hx
  rw [latestSlot_concat_complete]

theorem readyCount_eq_iff_allReady {α : Type} (k : Nat) (p : List (Nat × MEv α)) :
    (readyCount k p = k) ↔ (allReady k p = true) := by
  unfold readyCount allReady
  rw [List.all_eq_true]
  have h := filterLength_all (List.range k) (fun j => !isMarker (latestSlot j p))
  rw [List.length_range] at h
  exact h

theorem readyCount_nil (α : Type) (k : Nat) :
    readyCount k ([] : List (Nat × MEv α)) = 0 := by
  unfold readyCount
  have : ((List.range k).filter fun j => !isMarker (latestSlot j ([] : List (Nat × MEv α))))
      = [] := by
    apply List.eq_nil_of_subset_nil
    intro x hx
    have := List.of_mem_filter hx
    simp [latestSlot, isMarker] at this
  rw [this]
  rfl

theorem combineRunAux_spec {α : Type} (sched : List (Nat × MEv α)) :
    ∀ (k : Nat) (done : List (Nat × MEv α)) (s : CombState α),
    (∀ x ∈ sched, x.1 < k) →
    (∀ j, s.values j = latestSlot j done) →
    s.numData = readyCount k done →
    evValues (combineRunAux k s sched) = combineSpecNexts k done sched := by
  induction sched with
  | nil => intro k done s hidx hv hd; rfl
  | cons x rest ih =>
    intro k done s hidx hv hd
    obtain ⟨i, e⟩ := x
    have hidx' : ∀ y ∈ rest, y.1 < k := fun y hy => hidx y (List.mem_cons_of_mem _ hy)
    cases e with
    | next a =>
      have hik : i < k := hidx (i, MEv.next a) (List.mem_cons_self _ _)
      have hv' : ∀ j, (fun j => if j = i then Slot.val a else s.values j) j
          = latestSlot j (done ++ [(i, MEv.next a)]) := by
        intro j
        rw [latestSlot_concat_next]
        by_cases hji : j = i
        · subst hji; simp
        · have hij : ¬ (i = j) := fun hc => hji hc.symm
          simp [hji, hij, hv j]
      have hd' : (if isMarker (s.values i) then s.numData + 1 else s.numData)
          = readyCount k (done ++ [(i, MEv.next a)]) := by
        rw [hv i, hd]
        cases hm : isMarker (latestSlot i done)
        · rw [readyCount_concat_next_filled k i a done hm]
          simp
        · rw [readyCount_concat_next_marker k i a done hik hm]
          simp
      have hpay : (List.range k).map (fun j => if j = i then Slot.val a else s.values j)
          = snapshotTuple k (done ++ [(i, MEv.next a)]) := by
        unfold snapshotTuple
        exact congrArg (List.range k).map (funext hv')
      simp only [combineRunAux, combineSpecNexts, evValues_append]
      have hrec := ih k (done ++ [(i, MEv.next a)])
        ⟨fun j => if j = i then Slot.val a else s.values j,
         if isMarker (s.values i) then s.numData + 1 else s.numData,
         s.numCompleted⟩ hidx' hv' hd'
      by_cases hready : allReady k (done ++ [(i, MEv.next a)]) = true
      · have hnum : (if isMarker (s.values i) then s.numData + 1 else s.numData) = k := by
          rw [hd']
          exact (readyCount_eq_iff_allReady k _).mpr hready
        rw [if_pos hnum, if_pos hready]
        simp only [evValues, hpay]
        rw [hrec]
      · have hnum : ¬ ((if isMarker (s.values i) then s.numData + 1 else s.numData) = k) := by
          rw [hd']
          intro hc
          exact hready ((readyCount_eq_iff_allReady k _).mp hc)
        rw [if_neg hnum, if_neg hready]
        simpa using hrec
    | complete =>
      have hv' : ∀ j, s.values j = latestSlot j (done ++ [(i, MEv.complete)]) := by
        intro j
        rw [latestSlot_concat_complete]
        exact hv j
      have hd' : s.numData = readyCount k (done ++ [(i, MEv.complete)]) := by
        rw [readyCount_concat_complete]
        exact hd
      simp only [combineRunAux, combineSpecNexts, evValues_append]
      have hrec := ih k (done ++ [(i, MEv.complete)]) ⟨s.values, s.numData, s.numCompleted + 1⟩
        hidx' hv' hd'
      by_cases hc : s.numCompleted + 1 = k
      · rw [if_pos hc]
        simpa [evValues] using hrec
      · rw [if_neg hc]
        simpa using hrec

theorem combineSpecNexts_ready {α : Type} (sched : List (Nat × MEv α)) :
    ∀ (k : Nat) (done : List (Nat × MEv α)) (t : List (Slot α)),
      t ∈ combineSpecNexts k done sched → t.length = k ∧ Slot.marker ∉ t := by
  induction sched with
  | nil => intro k done t ht; simp [combineSpecNexts] at ht
  | cons x rest ih =>
    intro k done t ht
    obtain ⟨i, e⟩ := x
    cases e with
    | next a =>
      simp only [combineSpecNexts, List.mem_append] at ht
      rcases ht with h1 | h2
      · by_cases hr : allReady k (done ++ [(i, MEv.next a)]) = true
        · rw [if_pos hr, List.mem_singleton] at h1
          subst h1
          constructor
          · simp [snapshotTuple]
          · intro hmem
            unfold snapshotTuple at hmem
            rcases List.mem_map.mp hmem with ⟨j, hj, hEq⟩
            have hall := List.all_eq_true.mp hr j hj
            rw [hEq] at hall
            simp [isMarker] at hall
        · rw [if_neg hr] at h1
          simp at h1
      · exact ih k (done ++ [(i, MEv.next a)]) t h2
    | complete =>
      simp only [combineSpecNexts] at ht
      exact ih k (done ++ [(i, MEv.complete)]) t ht

/-- Claim C2: for any number of inputs and any schedule of their deliveries, the
tuples combine pushes downstream are exactly those of the spec-side description:
a full snapshot of every latest value, pushed only on values arriving from the
moment every input has produced at least one value, with the other slots keeping
their last known value; consequently no pushed tuple ever contains the sentinel,
whatever the input values are, and every tuple has one slot per input. -/
theorem combine_no_sentinel (α : Type) (k : Nat) (sched : List (Nat × MEv α))
    (hidx : ∀ x ∈ sched, x.1 < k) :
    evValues (combineRun k sched) = combineSpecNexts k [] sched
    ∧ ∀ t ∈ evValues (combineRun k sched), t.length = k ∧ Slot.marker ∉ t := by
  have heq : evValues (combineRun k sched) = combineSpecNexts k [] sched := by
    refine combineRunAux_spec sched k [] ⟨fun _ => Slot.marker, 0, 0⟩ hidx
      (fun j => rfl) ?_
    rw [readyCount_nil]
  refine ⟨heq, ?_⟩
  intro t ht
  rw [heq] at ht
  exact combineSpecNexts_ready sched k [] t ht

/-- Claim C2 witness at the concrete scenario of the spec: input 0 delivers 10
then 20, input 1 delivers its first value only afterwards; nothing is pushed
before that value, and the first pushed tuple is the sentinel-free snapshot. -/
theorem combine_no_sentinel_witness :
    evValues (combineRun 2 [(0, MEv.next 10), (0, MEv.next 20), (1, MEv.next 7)])
      = combineSpecNexts 2 [] [(0, MEv.next 10), (0, MEv.next 20), (1, MEv.next 7)]
    ∧ combineSpecNexts 2 ([] : List (Nat × MEv Nat))
        [(0, MEv.next 10), (0, MEv.next 20), (1, MEv.next 7)]
      = [[Slot.val 20, Slot.val 7]] :=
  ⟨(combine_no_sentinel Nat 2
      [(0, MEv.next 10), (0, MEv.next 20), (1, MEv.next 7)] (by decide)).1,
   by decide⟩
